import Mathlib

/-!
Shallow embedding of the HMCOS hierarchical memory-peak scheduler
(`src/unnamed/part_000`, namespace `hos`) together with proofs about the
claims of the specification.

Conventions of the embedding:
* C++ shared pointers to immutable `Value` / `Op` objects are modelled by
  plain structures with a numeric identity; pointer equality corresponds to
  structural equality on well-formed inputs (distinct objects get distinct
  ids).
* `std::unordered_map` is modelled by an association list.  The C++ code
  never iterates a use-count map, so the list order is irrelevant for the
  modelled observable behaviour; where the C++ code does iterate a map
  (the DP memo), iteration order in C++ is unspecified and the embedding
  fixes one deterministic order.
* `uint32_t` counters are decremented with explicit wrap-around
  (`% 2^32`), matching `--useCnt[val]` on a default-inserted zero.
  Sums of `uint64_t` byte sizes are modelled as `Nat`: no claim depends on
  64-bit overflow and the specification declares saturation fatal.
-/

set_option maxHeartbeats 1000000

namespace hos

/-- Kind of an SSA value (`ValueKind` in the source); `PARAM` values are
permanently resident and excluded from live-set deltas. -/
inductive ValueKind where
  | PARAM
  | INPUT
  | INTERMEDIATE
deriving DecidableEq, Repr

/-- A tensor-typed SSA value.  `size` models `value->type.Size()` and
`uses` models `value->uses.size()` (the number of user operators). -/
structure Value where
  id : Nat
  kind : ValueKind
  size : Nat
  uses : Nat
deriving DecidableEq, Repr

/-- Placeholder used to model C++ `operator[]` on vectors where the source
guarantees in-bounds access. -/
def defaultValue : Value := ⟨0, ValueKind.INTERMEDIATE, 0, 0⟩

/-- Reference to a graph vertex: an input pseudo-vertex, an operator, or
an output pseudo-vertex (C++ `VertexRef`), by numeric id. -/
inductive VRef where
  | vin (i : Nat)
  | vop (i : Nat)
  | vout (i : Nat)
deriving DecidableEq, Repr

/-- An operator vertex: ordered input and output values, the overlap hint
of its operator trait, and the predecessor/successor vertex lists (the
dual of the value-edge graph).  `overlap = some j` models
`OverlapInput(op) = j`, `none` models `OVERLAP_FAILED`. -/
structure Op where
  id : Nat
  inputs : List Value
  outputs : List Value
  overlap : Option Nat
  preds : List VRef
  succs : List VRef
deriving DecidableEq, Repr

/-- Use-count map `useCnt : Value -> remaining uses`, modelled as an
association list (the C++ `std::unordered_map<ValueRef, uint32_t>`). -/
abbrev UseCnt := List (Value × Nat)

/-- Map lookup (`find`). -/
def ucFind (m : UseCnt) (v : Value) : Option Nat :=
  match m with
  | [] => none
  | p :: rest => if p.1 = v then some p.2 else ucFind rest v

/-- `m[v] = c`: update in place when present, append otherwise (the
effect of C++ `operator[]` assignment). -/
def ucSet (m : UseCnt) (v : Value) (c : Nat) : UseCnt :=
  match m with
  | [] => [(v, c)]
  | p :: rest => if p.1 = v then (v, c) :: rest else p :: ucSet rest v c

/-- `m.erase(v)`. -/
def ucErase (m : UseCnt) (v : Value) : UseCnt :=
  match m with
  | [] => []
  | p :: rest => if p.1 = v then rest else p :: ucErase rest v

/-- `m.insert({v, c})` : C++ `insert` is a no-op when the key exists. -/
def ucInsert (m : UseCnt) (v : Value) (c : Nat) : UseCnt :=
  match ucFind m v with
  | some _ => m
  | none => m ++ [(v, c)]

/-- Wrapping decrement of a `uint32_t` counter: `--useCnt[val]` on a
default-inserted `0` wraps to `2^32 - 1`. -/
def u32sub1 (c : Nat) : Nat := (c + 4294967295) % 4294967296

/-- Wrapping subtraction `c - n` on `uint32_t` (used by
`updateGroupUseCount`); `n` is assumed below `2^32`. -/
def u32sub (c n : Nat) : Nat := (c + 4294967296 - n % 4294967296) % 4294967296

/-!
## Memory-state vector

Modelled from the spec: `MemStateVec` lives in `hos/sched/mem.hpp`, which
is not part of the provided sources.  Per spec §4.1 it records an initial
stable size and one `(inc, dec)` delta per scheduled op;
`append(inc, dec)` pushes `transient = stable + inc`,
`stable' = transient - dec`; `extend` appends the other vector's deltas
rebased onto the current stable size; `Peak()` is the maximum over the
initial size and all transient sizes, `Latest()` the last stable size.
Deltas are byte counts (non-negative); running states are modelled in `Int`
because a group-relative vector starts at `0` and may dip below its base
(the spec directs implementations to widen rather than wrap).
-/
structure MemStateVec where
  init : Int
  steps : List (Nat × Nat)
deriving DecidableEq, Repr

/-- Stable size after running `steps` from `base`. -/
def msvEnd (base : Int) (steps : List (Nat × Nat)) : Int :=
  match steps with
  | [] => base
  | (i, d) :: rest => msvEnd (base + i - d) rest

/-- Maximum over `base` and all transient sizes of `steps` run from
`base`. -/
def msvPeakAux (base : Int) (steps : List (Nat × Nat)) : Int :=
  match steps with
  | [] => base
  | (i, d) :: rest => max (base + i) (msvPeakAux (base + i - d) rest)

/-- `Latest()`. -/
def MemStateVec.latest (v : MemStateVec) : Int := msvEnd v.init v.steps

/-- `Peak()`. -/
def MemStateVec.peak (v : MemStateVec) : Int := msvPeakAux v.init v.steps

/-- `Append(inc, dec)`. -/
def MemStateVec.append (v : MemStateVec) (inc dec : Nat) : MemStateVec :=
  ⟨v.init, v.steps ++ [(inc, dec)]⟩

/-- `Extend(other)`: append `other`'s deltas after rebasing them onto this
vector's current stable size. -/
def MemStateVec.extend (v w : MemStateVec) : MemStateVec :=
  ⟨v.init, v.steps ++ w.steps⟩

/-- Fresh vector with a given initial stable size (`MemStateVec(init)`;
`MemStateVec()` is `msvNil`). -/
def msvNil : MemStateVec := ⟨0, []⟩

/-!
## Sequence scheduler (`scheduleSequence`, source lines 144-192)
-/

/-- Step 1 of `scheduleSequence`'s loop body: decrement the use count of
every non-PARAM input (with `uint32_t` wrap-around on a default-inserted
zero) and collect the values whose count reaches zero (`killed`). -/
def consumeInputs (m : UseCnt) (inputs : List Value) : UseCnt × List Value :=
  match inputs with
  | [] => (m, [])
  | v :: rest =>
    if v.kind = ValueKind.PARAM then consumeInputs m rest
    else
      let c := u32sub1 ((ucFind m v).getD 0)
      let m1 := ucSet m v c
      let r := consumeInputs m1 rest
      (r.1, if c = 0 then v :: r.2 else r.2)

/-- Result of one iteration of `scheduleSequence`'s loop over an op. -/
structure StepOut where
  ovl : Option Nat
  inc : Nat
  dec : Nat
  killed : List Value
  next : UseCnt
deriving Repr

/-- One iteration of the loop body of `scheduleSequence` (source lines
148-188): consume inputs, decide overlap, compute the `(inc, dec)` deltas,
erase killed values and insert the op's outputs.  Note that the source
computes `ovlVal` as `op->inputs[0]` (not `op->inputs[ovlIdx]`). -/
def schedStep (op : Op) (m : UseCnt) : StepOut :=
  let cm := consumeInputs m op.inputs
  let killed := cm.2
  let ovl : Option Nat :=
    match op.overlap with
    | none => none
    | some j => if (op.inputs.getD j defaultValue) ∈ killed then some j else none
  let inc : Nat :=
    if ovl.isNone then (op.outputs.map (fun v => v.size)).sum else 0
  let ovlVal : Option Value :=
    if ovl.isNone then none else some (op.inputs.getD 0 defaultValue)
  let dec : Nat :=
    (op.inputs.map (fun v =>
      if v.kind = ValueKind.PARAM then 0
      else if v ∈ killed then (if some v = ovlVal then 0 else v.size) else 0)).sum
  let m2 := killed.foldl ucErase cm.1
  let m3 := op.outputs.foldl (fun a v => ucInsert a v v.uses) m2
  ⟨ovl, inc, dec, killed, m3⟩

/-- A maximal chain of operators (`Sequence`); `preds`/`succs` hold the
ids of neighbouring hierarchical vertices. -/
structure Sequence where
  id : Nat
  ops : List Op
  preds : List Nat
  succs : List Nat
deriving DecidableEq, Repr

/-- Scheduled op list plus its memory states (`SchedResult`). -/
structure SchedResult where
  seq : List Op
  states : MemStateVec
deriving DecidableEq, Repr

/-- `SchedResult::Update`: keep the result with the smaller `Peak()`,
preferring the existing one on ties. -/
def SchedResult.update (this other : SchedResult) : SchedResult :=
  if other.states.peak < this.states.peak then other else this

/-- `scheduleSequence`: fold the step over the sequence's ops, returning
the op list, the MSV segment and the updated use-count map. -/
def scheduleSequence (s : Sequence) (m : UseCnt) : SchedResult × UseCnt :=
  let f := s.ops.foldl
    (fun (acc : MemStateVec × UseCnt) op =>
      let st := schedStep op acc.2
      (acc.1.append st.inc st.dec, st.next))
    (msvNil, m)
  (⟨s.ops, f.1⟩, f.2)

/-!
## Basic lemmas about use-count maps
-/

/-- All counters of the map fit in `uint32_t`. -/
def ucBounded (m : UseCnt) : Prop := ∀ p ∈ m, p.2 < 4294967296

theorem ucFind_mem {m : UseCnt} {v : Value} {c : Nat} (h : ucFind m v = some c) :
    (v, c) ∈ m := by
  induction m with
  | nil => simp [ucFind] at h
  | cons p rest ih =>
    simp only [ucFind] at h
    by_cases hp : p.1 = v
    · rw [if_pos hp] at h
      cases h
      have : p = (v, p.2) := by
        cases p
        simp only at hp
        rw [hp]
      rw [this] at *
      exact List.mem_cons_self _ _
    · rw [if_neg hp] at h
      exact List.mem_cons_of_mem _ (ih h)

theorem ucFind_getD_lt {m : UseCnt} (hb : ucBounded m) (v : Value) :
    (ucFind m v).getD 0 < 4294967296 := by
  cases h : ucFind m v with
  | none => simp
  | some c => simpa using hb _ (ucFind_mem h)

theorem ucFind_set_self (m : UseCnt) (v : Value) (c : Nat) :
    ucFind (ucSet m v c) v = some c := by
  induction m with
  | nil => simp [ucSet, ucFind]
  | cons p rest ih =>
    by_cases hp : p.1 = v
    · simp [ucSet, hp, ucFind]
    · simp [ucSet, hp, ucFind, ih]

theorem ucFind_set_ne (m : UseCnt) {v w : Value} (c : Nat) (h : w ≠ v) :
    ucFind (ucSet m v c) w = ucFind m w := by
  have hvw : ¬ v = w := Ne.symm h
  induction m with
  | nil =>
    simp only [ucSet, ucFind]
    rw [if_neg hvw]
  | cons p rest ih =>
    simp only [ucSet]
    by_cases hp : p.1 = v
    · rw [if_pos hp]
      simp only [ucFind]
      rw [if_neg hvw, if_neg (show ¬ p.1 = w from hp ▸ hvw)]
    · rw [if_neg hp]
      simp only [ucFind]
      by_cases hw : p.1 = w
      · rw [if_pos hw, if_pos hw]
      · rw [if_neg hw, if_neg hw, ih]

theorem mem_ucSet {m : UseCnt} {v : Value} {c : Nat} {p : Value × Nat}
    (hp : p ∈ ucSet m v c) : p = (v, c) ∨ p ∈ m := by
  induction m with
  | nil =>
    simp only [ucSet] at hp
    rcases List.mem_cons.mp hp with h | h
    · exact Or.inl h
    · simp at h
  | cons q rest ih =>
    simp only [ucSet] at hp
    by_cases hq : q.1 = v
    · rw [if_pos hq] at hp
      rcases List.mem_cons.mp hp with h | h
      · exact Or.inl h
      · exact Or.inr (List.mem_cons_of_mem _ h)
    · rw [if_neg hq] at hp
      rcases List.mem_cons.mp hp with h | h
      · exact Or.inr (h ▸ List.mem_cons_self _ _)
      · rcases ih h with h2 | h2
        · exact Or.inl h2
        · exact Or.inr (List.mem_cons_of_mem _ h2)

theorem ucBounded_set {m : UseCnt} (hb : ucBounded m) {v : Value} {c : Nat}
    (hc : c < 4294967296) : ucBounded (ucSet m v c) := by
  intro p hp
  rcases mem_ucSet hp with h | h
  · rw [h]
    exact hc
  · exact hb p h

theorem u32sub1_lt (c : Nat) : u32sub1 c < 4294967296 := by
  unfold u32sub1
  omega

/-- PARAM values are never recorded as killed. -/
theorem param_not_killed {v : Value} (hv : v.kind = ValueKind.PARAM)
    (m : UseCnt) (inputs : List Value) : v ∉ (consumeInputs m inputs).2 := by
  induction inputs generalizing m with
  | nil => simp [consumeInputs]
  | cons w rest ih =>
    by_cases hw : w.kind = ValueKind.PARAM
    · simpa [consumeInputs, hw] using ih m
    · simp only [consumeInputs, hw, if_neg hw]
      intro hmem
      by_cases hz : u32sub1 ((ucFind m w).getD 0) = 0
      · rw [if_pos hz] at hmem
        rcases List.mem_cons.mp hmem with h | h
        · exact hw (h ▸ hv)
        · exact ih _ h
      · rw [if_neg hz] at hmem
        exact ih _ hmem

theorem consumeInputs_cons_param {w : Value} (hw : w.kind = ValueKind.PARAM)
    (m : UseCnt) (rest : List Value) :
    consumeInputs m (w :: rest) = consumeInputs m rest := by
  simp only [consumeInputs]
  rw [if_pos hw]

theorem consumeInputs_cons (m : UseCnt) {w : Value}
    (hw : ¬ w.kind = ValueKind.PARAM) (rest : List Value) :
    consumeInputs m (w :: rest) =
      ((consumeInputs (ucSet m w (u32sub1 ((ucFind m w).getD 0))) rest).1,
       if u32sub1 ((ucFind m w).getD 0) = 0
       then w :: (consumeInputs (ucSet m w (u32sub1 ((ucFind m w).getD 0))) rest).2
       else (consumeInputs (ucSet m w (u32sub1 ((ucFind m w).getD 0))) rest).2) := by
  simp only [consumeInputs]
  rw [if_neg hw]

theorem killed_cons (m : UseCnt) {w : Value}
    (hw : ¬ w.kind = ValueKind.PARAM) (rest : List Value) :
    (consumeInputs m (w :: rest)).2 =
      if u32sub1 ((ucFind m w).getD 0) = 0
      then w :: (consumeInputs (ucSet m w (u32sub1 ((ucFind m w).getD 0))) rest).2
      else (consumeInputs (ucSet m w (u32sub1 ((ucFind m w).getD 0))) rest).2 := by
  rw [consumeInputs_cons m hw rest]

theorem consumeMap_cons (m : UseCnt) {w : Value}
    (hw : ¬ w.kind = ValueKind.PARAM) (rest : List Value) :
    (consumeInputs m (w :: rest)).1 =
      (consumeInputs (ucSet m w (u32sub1 ((ucFind m w).getD 0))) rest).1 := by
  rw [consumeInputs_cons m hw rest]

/-- Characterization of the killed set of one op step: a value is killed
exactly when it is a non-PARAM input whose remaining use count is at least
one and at most the number of times the op consumes it — i.e. its count
reaches zero during this step. -/
theorem killed_iff (inputs : List Value) (m : UseCnt) (v : Value)
    (hb : ucBounded m) (hlen : inputs.length < 4294967295) :
    v ∈ (consumeInputs m inputs).2 ↔
      v.kind ≠ ValueKind.PARAM ∧
      1 ≤ (ucFind m v).getD 0 ∧ (ucFind m v).getD 0 ≤ inputs.count v := by
  induction inputs generalizing m with
  | nil =>
    simp only [consumeInputs, List.not_mem_nil, false_iff, List.count_nil]
    rintro ⟨-, h1, h2⟩
    omega
  | cons w rest ih =>
    have hrest : rest.length < 4294967295 := by
      simp only [List.length_cons] at hlen
      omega
    by_cases hw : w.kind = ValueKind.PARAM
    · rw [consumeInputs_cons_param hw]
      by_cases hv : v = w
      · subst hv
        rw [ih m hb hrest]
        constructor
        · rintro ⟨hk, -, -⟩
          exact absurd hw hk
        · rintro ⟨hk, -, -⟩
          exact absurd hw hk
      · rw [ih m hb hrest, List.count_cons_of_ne hv]
    · rw [killed_cons m hw rest]
      have hc0lt : (ucFind m w).getD 0 < 4294967296 := ucFind_getD_lt hb w
      have hb1 : ucBounded (ucSet m w (u32sub1 ((ucFind m w).getD 0))) :=
        ucBounded_set hb (u32sub1_lt _)
      have hcnt : rest.count v ≤ rest.length := List.count_le_length _ _
      by_cases hv : v = w
      · subst hv
        have hfind : (ucFind (ucSet m v (u32sub1 ((ucFind m v).getD 0))) v).getD 0
            = u32sub1 ((ucFind m v).getD 0) := by
          rw [ucFind_set_self]
          exact Option.getD_some
        rw [List.count_cons_self]
        by_cases hz : u32sub1 ((ucFind m v).getD 0) = 0
        · rw [if_pos hz]
          constructor
          · intro _
            refine ⟨hw, ?_, ?_⟩
            · revert hz
              unfold u32sub1
              omega
            · revert hz
              unfold u32sub1
              omega
          · intro _
            exact List.mem_cons_self _ _
        · rw [if_neg hz, ih _ hb1 hrest, hfind]
          unfold u32sub1 at hz ⊢
          constructor
          · rintro ⟨hk, h1, h2⟩
            exact ⟨hk, by omega, by omega⟩
          · rintro ⟨hk, h1, h2⟩
            exact ⟨hk, by omega, by omega⟩
      · have hfind : ucFind (ucSet m w (u32sub1 ((ucFind m w).getD 0))) v = ucFind m v :=
          ucFind_set_ne m _ hv
        rw [List.count_cons_of_ne hv]
        by_cases hz : u32sub1 ((ucFind m w).getD 0) = 0
        · rw [if_pos hz]
          have hstep : (v ∈ w ::
                (consumeInputs (ucSet m w (u32sub1 ((ucFind m w).getD 0))) rest).2)
              ↔ v ∈ (consumeInputs (ucSet m w (u32sub1 ((ucFind m w).getD 0))) rest).2 := by
            simp [List.mem_cons, hv]
          rw [hstep, ih _ hb1 hrest, hfind]
        · rw [if_neg hz, ih _ hb1 hrest, hfind]

theorem schedStep_killed (op : Op) (m : UseCnt) :
    (schedStep op m).killed = (consumeInputs m op.inputs).2 := rfl

theorem schedStep_ovl_none {op : Op} (h : op.overlap = none) (m : UseCnt) :
    (schedStep op m).ovl = none := by
  unfold schedStep
  simp only [h]

theorem schedStep_ovl_some {op : Op} {k : Nat} (h : op.overlap = some k) (m : UseCnt) :
    (schedStep op m).ovl =
      (if op.inputs.getD k defaultValue ∈ (consumeInputs m op.inputs).2
       then some k else none) := by
  unfold schedStep
  simp only [h]

theorem schedStep_inc (op : Op) (m : UseCnt) :
    (schedStep op m).inc =
      if (schedStep op m).ovl.isNone
      then (op.outputs.map (fun v => v.size)).sum else 0 := rfl

theorem schedStep_dec (op : Op) (m : UseCnt) :
    (schedStep op m).dec =
      (op.inputs.map (fun v =>
        if v.kind = ValueKind.PARAM then 0
        else if v ∈ (consumeInputs m op.inputs).2 then
          (if some v = (if (schedStep op m).ovl.isNone then none
                        else some (op.inputs.getD 0 defaultValue)) then 0 else v.size)
        else 0)).sum := rfl

theorem schedStep_next (op : Op) (m : UseCnt) :
    (schedStep op m).next =
      op.outputs.foldl (fun a v => ucInsert a v v.uses)
        ((consumeInputs m op.inputs).2.foldl ucErase (consumeInputs m op.inputs).1) := rfl

/-!
## Claims C3, C4, C6 — per-step deltas and overlap acceptance
-/

/-- The spec's acceptance condition for the overlap candidate `j` of `op`:
the input at index `j` is a non-PARAM value whose use count reaches zero
at this step. -/
def overlapKilledCond (op : Op) (m : UseCnt) (j : Nat) : Prop :=
  (op.inputs.getD j defaultValue).kind ≠ ValueKind.PARAM ∧
  1 ≤ (ucFind m (op.inputs.getD j defaultValue)).getD 0 ∧
  (ucFind m (op.inputs.getD j defaultValue)).getD 0 ≤
    op.inputs.count (op.inputs.getD j defaultValue)

instance (op : Op) (m : UseCnt) (j : Nat) : Decidable (overlapKilledCond op m j) := by
  unfold overlapKilledCond
  infer_instance

/-- C6: the sequence scheduler accepts the declared overlap candidate `j`
iff the input value at index `j` is killed at exactly this op (its
remaining use count reaches zero during this step); with no declared
candidate, or a candidate that is not killed here, the overlap fails. -/
theorem overlap_accepted_iff (op : Op) (m : UseCnt) (hb : ucBounded m)
    (hlen : op.inputs.length < 4294967295) :
    ∀ j : Nat, (schedStep op m).ovl = some j ↔
      op.overlap = some j ∧ overlapKilledCond op m j := by
  intro j
  cases hov : op.overlap with
  | none =>
    rw [schedStep_ovl_none hov]
    constructor
    · intro h
      cases h
    · rintro ⟨h, -⟩
      cases h
  | some k =>
    rw [schedStep_ovl_some hov]
    by_cases hk : op.inputs.getD k defaultValue ∈ (consumeInputs m op.inputs).2
    · rw [if_pos hk]
      rw [killed_iff op.inputs m _ hb hlen] at hk
      constructor
      · intro h
        cases h
        exact ⟨rfl, hk⟩
      · rintro ⟨h, -⟩
        cases h
        rfl
    · rw [if_neg hk]
      constructor
      · intro h
        cases h
      · rintro ⟨h, hcond⟩
        cases h
        exact absurd ((killed_iff op.inputs m _ hb hlen).mpr hcond) hk

/-- Witness for `overlap_accepted_iff`: a concrete op whose single input
is killed at the step, so the overlap is accepted. -/
theorem overlap_accepted_iff_witness :
    (schedStep ⟨10, [⟨1, ValueKind.INTERMEDIATE, 3, 1⟩],
        [⟨2, ValueKind.INTERMEDIATE, 5, 1⟩], some 0, [], []⟩
        [(⟨1, ValueKind.INTERMEDIATE, 3, 1⟩, 1)]).ovl = some 0 := by
  have h := overlap_accepted_iff
    ⟨10, [⟨1, ValueKind.INTERMEDIATE, 3, 1⟩], [⟨2, ValueKind.INTERMEDIATE, 5, 1⟩], some 0, [], []⟩
    [(⟨1, ValueKind.INTERMEDIATE, 3, 1⟩, 1)]
    (by intro p hp; simp at hp; simp [hp]) (by simp) 0
  exact h.mpr ⟨rfl, by decide⟩

/-- C3 counterexample: an op with an accepted overlap whose recorded `inc`
is `0`, not `Σ size(output) - size(input j)` (= 2 here): the claim as
stated fails on the code. -/
theorem overlap_inc_counterexample :
    let op : Op := ⟨10, [⟨1, ValueKind.INTERMEDIATE, 3, 1⟩],
        [⟨2, ValueKind.INTERMEDIATE, 5, 1⟩], some 0, [], []⟩
    let m : UseCnt := [(⟨1, ValueKind.INTERMEDIATE, 3, 1⟩, 1)]
    (schedStep op m).ovl = some 0 ∧
    (schedStep op m).inc = 0 ∧
    ((op.outputs.map (fun v => v.size)).sum -
      (op.inputs.getD 0 defaultValue).size) = 2 := by
  decide

/-- C3 amended: the `inc` recorded for an op is the sum of the sizes of
its outputs when no overlap is accepted, and `0` (not the sum minus the
overlapped input's size) when the declared candidate is killed at this
step. -/
theorem step_inc_spec (op : Op) (m : UseCnt) (hb : ucBounded m)
    (hlen : op.inputs.length < 4294967295) :
    (schedStep op m).inc =
      match op.overlap with
      | none => (op.outputs.map (fun v => v.size)).sum
      | some j =>
        if overlapKilledCond op m j then 0
        else (op.outputs.map (fun v => v.size)).sum := by
  rw [schedStep_inc]
  cases hov : op.overlap with
  | none =>
    rw [schedStep_ovl_none hov]
    show (if (none : Option Nat).isNone = true
        then (op.outputs.map (fun v => v.size)).sum else 0)
      = (op.outputs.map (fun v => v.size)).sum
    simp
  | some j =>
    rw [schedStep_ovl_some hov]
    show _ = if overlapKilledCond op m j then 0
        else (op.outputs.map (fun v => v.size)).sum
    by_cases hk : op.inputs.getD j defaultValue ∈ (consumeInputs m op.inputs).2
    · have hcond : overlapKilledCond op m j :=
        (killed_iff op.inputs m _ hb hlen).mp hk
      rw [if_pos hk, if_pos hcond]
      simp
    · have hcond : ¬ overlapKilledCond op m j := fun hc =>
        hk ((killed_iff op.inputs m _ hb hlen).mpr hc)
      rw [if_neg hk, if_neg hcond]
      simp

/-- Witness for `step_inc_spec` at a concrete op with accepted overlap. -/
theorem step_inc_spec_witness :
    (schedStep ⟨10, [⟨1, ValueKind.INTERMEDIATE, 3, 1⟩],
        [⟨2, ValueKind.INTERMEDIATE, 5, 1⟩], some 0, [], []⟩
        [(⟨1, ValueKind.INTERMEDIATE, 3, 1⟩, 1)]).inc = 0 := by
  have h := step_inc_spec
    ⟨10, [⟨1, ValueKind.INTERMEDIATE, 3, 1⟩], [⟨2, ValueKind.INTERMEDIATE, 5, 1⟩], some 0, [], []⟩
    [(⟨1, ValueKind.INTERMEDIATE, 3, 1⟩, 1)]
    (by intro p hp; simp at hp; simp [hp]) (by simp)
  rw [h]
  decide

/-- C4: the code computes `ovlVal` as `op->inputs[0]` instead of
`op->inputs[ovlIdx]` (source line 170), contradicting its own comment
"overlapped value should not be counted".  At this op both inputs are
killed and the accepted overlap index is 1, so the claim (and the code's
intent) require `dec = size(input 0) = 2`, but the code excludes input 0
and counts the overlapped input 1, yielding `dec = 3`. -/
theorem dec_excludes_input0_bug :
    let a : Value := ⟨1, ValueKind.INTERMEDIATE, 2, 1⟩
    let b : Value := ⟨2, ValueKind.INTERMEDIATE, 3, 1⟩
    let op : Op := ⟨11, [a, b], [⟨3, ValueKind.INTERMEDIATE, 7, 1⟩], some 1, [], []⟩
    let m : UseCnt := [(a, 1), (b, 1)]
    (schedStep op m).ovl = some 1 ∧
    (schedStep op m).killed = [a, b] ∧
    (schedStep op m).dec = 3 ∧
    a.size + b.size - b.size = 2 := by
  decide

/-!
## Memory-state vector lemmas
-/

theorem msvEnd_append (b : Int) (l1 l2 : List (Nat × Nat)) :
    msvEnd b (l1 ++ l2) = msvEnd (msvEnd b l1) l2 := by
  induction l1 generalizing b with
  | nil => rfl
  | cons p rest ih =>
    obtain ⟨i, d⟩ := p
    simp only [List.cons_append, msvEnd]
    exact ih _

theorem msvEnd_shift (c b : Int) (l : List (Nat × Nat)) :
    msvEnd (c + b) l = c + msvEnd b l := by
  induction l generalizing b with
  | nil => rfl
  | cons p rest ih =>
    obtain ⟨i, d⟩ := p
    simp only [msvEnd]
    rw [show c + b + ↑i - ↑d = c + (b + ↑i - ↑d) by omega]
    exact ih _

theorem base_le_msvPeakAux (b : Int) (l : List (Nat × Nat)) :
    b ≤ msvPeakAux b l := by
  induction l generalizing b with
  | nil => exact le_refl b
  | cons p rest ih =>
    obtain ⟨i, d⟩ := p
    simp only [msvPeakAux]
    exact le_max_of_le_left (by omega)

theorem msvEnd_le_msvPeakAux (b : Int) (l : List (Nat × Nat)) :
    msvEnd b l ≤ msvPeakAux b l := by
  induction l generalizing b with
  | nil => exact le_refl b
  | cons p rest ih =>
    obtain ⟨i, d⟩ := p
    simp only [msvEnd, msvPeakAux]
    exact le_max_of_le_right (ih _)

theorem msvPeakAux_append (b : Int) (l1 l2 : List (Nat × Nat)) :
    msvPeakAux b (l1 ++ l2) =
      max (msvPeakAux b l1) (msvPeakAux (msvEnd b l1) l2) := by
  induction l1 generalizing b with
  | nil =>
    simp only [List.nil_append, msvPeakAux, msvEnd]
    exact (max_eq_right (base_le_msvPeakAux b l2)).symm
  | cons p rest ih =>
    obtain ⟨i, d⟩ := p
    show max (b + ↑i) (msvPeakAux (b + ↑i - ↑d) (rest ++ l2)) =
      max (max (b + ↑i) (msvPeakAux (b + ↑i - ↑d) rest))
          (msvPeakAux (msvEnd (b + ↑i - ↑d) rest) l2)
    rw [ih, max_assoc]

theorem msvPeakAux_shift (c b : Int) (l : List (Nat × Nat)) :
    msvPeakAux (c + b) l = c + msvPeakAux b l := by
  induction l generalizing b with
  | nil => rfl
  | cons p rest ih =>
    obtain ⟨i, d⟩ := p
    simp only [msvPeakAux]
    rw [show c + b + ↑i - ↑d = c + (b + ↑i - ↑d) by omega, ih _,
      show c + b + ↑i = c + (b + ↑i) by omega]
    exact max_add_add_left c _ _

/-- The spec's contract for `Extend` (§4.1): concatenation commutes with
computing peaks, for a second vector based at `0`. -/
theorem extend_peak (A B : MemStateVec) (hB : B.init = 0) :
    (A.extend B).peak = max A.peak (A.latest + B.peak) := by
  unfold MemStateVec.extend MemStateVec.peak MemStateVec.latest
  simp only
  rw [msvPeakAux_append]
  congr 1
  rw [hB]
  have h := msvPeakAux_shift (msvEnd A.init A.steps) 0 B.steps
  rw [add_zero] at h
  exact h

theorem extend_latest (A B : MemStateVec) (hB : B.init = 0) :
    (A.extend B).latest = A.latest + B.latest := by
  unfold MemStateVec.extend MemStateVec.latest
  simp only
  rw [msvEnd_append, hB]
  have h := msvEnd_shift (msvEnd A.init A.steps) 0 B.steps
  rw [add_zero] at h
  exact h

theorem latest_le_peak (A : MemStateVec) : A.latest ≤ A.peak :=
  msvEnd_le_msvPeakAux A.init A.steps

/-!
## Group scheduler (`scheduleGroupRpo`, `scheduleGroupDp`,
`HierScheduler::scheduleVertex` group case; source lines 194-400)
-/

/-- A `Group`: a region of sequences.  `exits` are the sequences the
reverse-postorder traversal starts from, `consumed`/`produced` are the
precomputed external-use multisets, `inFront`/`outFront` the input/output
frontiers (used by `ungroup`). -/
structure Group where
  id : Nat
  seqs : List Sequence
  exits : List Nat
  consumed : List (Value × Nat)
  produced : List (Value × Nat)
  inFront : List Nat
  outFront : List Nat
deriving DecidableEq, Repr

/-- Look up a sequence of the group by id (C++ dereferences the vertex
handle directly; well-formed groups have distinct ids). -/
def Group.findSeq (g : Group) (i : Nat) : Sequence :=
  ((g.seqs.filter (fun s => s.id = i)).head?).getD ⟨0, [], [], []⟩

/-- Predecessor-count map over hierarchical vertices, keyed by id. -/
abbrev PredCnt := List (Nat × Nat)

def pcFind (m : PredCnt) (k : Nat) : Option Nat :=
  match m with
  | [] => none
  | p :: rest => if p.1 = k then some p.2 else pcFind rest k

def pcSet (m : PredCnt) (k : Nat) (c : Nat) : PredCnt :=
  match m with
  | [] => [(k, c)]
  | p :: rest => if p.1 = k then (k, c) :: rest else p :: pcSet rest k c

/-- `predCnt[succ]--`: default-insert then wrapping decrement. -/
def pcDec (m : PredCnt) (k : Nat) : PredCnt :=
  pcSet m k (u32sub1 ((pcFind m k).getD 0))

/-- `hos::Insert` on the canonical frontier vector: keep it sorted (the
spec directs canonicalizing the memo key by sorting vertex handles). -/
def sortedInsert (x : Nat) (l : List Nat) : List Nat :=
  match l with
  | [] => [x]
  | y :: rest => if x ≤ y then x :: y :: rest else y :: sortedInsert x rest

/-- `extractZeroIn`: move all zero-count entries of the predecessor-count
map into the ordered frontier vector, then erase every frontier key from
the map. -/
def extractZeroIn (pc : PredCnt) (zeroIn : List Nat) : PredCnt × List Nat :=
  let z2 := (pc.filter (fun p => p.2 = 0)).foldl
    (fun acc p => sortedInsert p.1 acc) zeroIn
  (pc.filter (fun p => ¬ p.1 ∈ z2), z2)

/-- DP state (`PartialSchedResult`): scheduled prefix, its MSV, the
predecessor counts of unscheduled vertices and the current use counts. -/
structure PartialSchedResult where
  seq : List Op
  states : MemStateVec
  predCnt : PredCnt
  useCnt : UseCnt
deriving DecidableEq, Repr

def PartialSchedResult.toSchedResult (r : PartialSchedResult) : SchedResult :=
  ⟨r.seq, r.states⟩

/-- `SchedResult::Update` called on a `PartialSchedResult`: only the
inherited `seq`/`states` are swapped in when the new result has a smaller
peak; `predCnt` and `useCnt` of the existing entry are kept. -/
def PartialSchedResult.update (this other : PartialSchedResult) :
    PartialSchedResult :=
  if other.states.peak < this.states.peak then
    { this with seq := other.seq, states := other.states }
  else this

/-- The DP memo: canonical frontier vector to best partial result. -/
abbrev Memo := List (List Nat × PartialSchedResult)

def memoFind (m : Memo) (k : List Nat) : Option PartialSchedResult :=
  match m with
  | [] => none
  | p :: rest => if p.1 = k then some p.2 else memoFind rest k

/-- Upsert into the memo: `newMemo[key].Update(newResult)` when the key
exists, plain insert otherwise. -/
def memoUpsert (m : Memo) (k : List Nat) (r : PartialSchedResult) : Memo :=
  match m with
  | [] => [(k, r)]
  | p :: rest =>
    if p.1 = k then (p.1, p.2.update r) :: rest else p :: memoUpsert rest k r

/-- `updateResult` (source lines 217-246): extend the op sequence and the
memory states with the vertex result, update the zero-indegree set and
memoize. -/
def updateResult (vert : Nat) (vertSuccs : List Nat) (zeroIn : List Nat)
    (result : PartialSchedResult) (vertResult : SchedResult) (useCnt : UseCnt)
    (newMemo : Memo) : Memo :=
  let seq := result.seq ++ vertResult.seq
  let states := result.states.extend vertResult.states
  let predCnt := vertSuccs.foldl pcDec result.predCnt
  let z1 := zeroIn.erase vert
  let ez := extractZeroIn predCnt z1
  memoUpsert newMemo ez.2 ⟨seq, states, ez.1, useCnt⟩

/-- `scheduleGroupDp` (source lines 249-281): frontier-keyed DP over the
group's sequences; iterate `|seqs|` rounds, then read the empty-frontier
entry (`memo[{}]` default-constructs an empty result when absent). -/
def scheduleGroupDp (group : Group) (useCnt : UseCnt) : SchedResult :=
  let pc0 : PredCnt := group.seqs.map (fun s => (s.id, s.preds.length))
  let ez := extractZeroIn pc0 []
  let memo0 : Memo := [(ez.2, ⟨[], msvNil, ez.1, useCnt⟩)]
  let memoN := (List.range group.seqs.length).foldl
    (fun memo _ =>
      memo.foldl
        (fun newMemo entry =>
          entry.1.foldl
            (fun nm vertId =>
              let s := group.findSeq vertId
              let r := scheduleSequence s entry.2.useCnt
              updateResult vertId s.succs entry.1 entry.2 r.1 r.2 nm)
            newMemo)
        [])
    memo0
  ((memoFind memoN []).getD ⟨[], msvNil, [], []⟩).toSchedResult

/-- Modelled from the spec: `RpoIter` of `hos/util` is not among the
sources.  Per the glossary, reverse postorder rooted at the group's exits
is a linearization in which every vertex appears after all its
predecessors, obtained by a depth-first traversal from the exits along
predecessor edges, emitting each vertex after its predecessors
(postorder).  `fuel` bounds the recursion depth; `|seqs|` always
suffices. -/
def dfsPostL (g : Group) (fuel : Nat) (vis : List Nat) (vs : List Nat) :
    List Nat × List Nat :=
  match vs with
  | [] => (vis, [])
  | v :: rest =>
    if v ∈ vis then dfsPostL g fuel vis rest
    else
      match fuel with
      | 0 =>
        let r := dfsPostL g 0 (v :: vis) rest
        (r.1, v :: r.2)
      | f + 1 =>
        let r1 := dfsPostL g f (v :: vis) (g.findSeq v).preds
        let r2 := dfsPostL g (f + 1) r1.1 rest
        (r2.1, (r1.2 ++ [v]) ++ r2.2)
termination_by (fuel, vs.length)
decreasing_by
  all_goals simp_wf
  · exact Prod.Lex.right _ (by omega)
  · exact Prod.Lex.right _ (by omega)
  · exact Prod.Lex.left _ _ (by omega)
  · exact Prod.Lex.right _ (by omega)

/-- Sequence ids of the group in the modelled reverse postorder. -/
def rpoSeqOrder (g : Group) : List Nat :=
  (dfsPostL g g.seqs.length [] g.exits).2

/-- `scheduleGroupRpo` (source lines 197-215): schedule each sequence in
reverse postorder, concatenating op lists and extending the MSV. -/
def scheduleGroupRpo (g : Group) (m : UseCnt) : SchedResult × UseCnt :=
  (rpoSeqOrder g).foldl
    (fun (acc : SchedResult × UseCnt) vid =>
      let s := g.findSeq vid
      let r := scheduleSequence s acc.2
      (⟨acc.1.seq ++ r.1.seq, acc.1.states.extend r.1.states⟩, r.2))
    (⟨[], msvNil⟩, m)

/-- `GroupContext` (source lines 99-115): group identity plus, for each
externally consumed value, whether this invocation's use count equals the
group's consumption (i.e. the group kills it).  `useCnt.at` throws on a
missing key in C++; the model yields `false` there. -/
structure GroupContext where
  group : Nat
  kill : List Bool
deriving DecidableEq, Repr

def groupCtx (g : Group) (m : UseCnt) : GroupContext :=
  ⟨g.id, g.consumed.map (fun p => decide (ucFind m p.1 = some p.2))⟩

/-- `updateGroupUseCount` (source lines 283-297). -/
def updateGroupUseCount (g : Group) (m : UseCnt) : UseCnt :=
  let step := g.consumed.foldl
    (fun (acc : UseCnt × List Value) p =>
      let c := u32sub ((ucFind acc.1 p.1).getD 0) p.2
      (ucSet acc.1 p.1 c, if c = 0 then acc.2 ++ [p.1] else acc.2))
    (m, [])
  let m2 := step.2.foldl ucErase step.1
  g.produced.foldl (fun a p => ucInsert a p.1 p.2) m2

/-- Cross-iteration memo of group schedules keyed by context. -/
abbrev GroupMemo := List (GroupContext × SchedResult)

def gmFind (m : GroupMemo) (k : GroupContext) : Option SchedResult :=
  match m with
  | [] => none
  | p :: rest => if p.1 = k then some p.2 else gmFind rest k

def gmInsert (m : GroupMemo) (k : GroupContext) (r : SchedResult) : GroupMemo :=
  match gmFind m k with
  | some _ => m
  | none => m ++ [(k, r)]

/-- The `GROUP` arm of `HierScheduler::scheduleVertex` (source lines
362-388): memo hit; else try reverse postorder and accept it when it
cannot lift the peak; else run the DP and memoize.  Returns the result,
the caller's updated use-count map and the updated memo. -/
def scheduleGroupVertex (g : Group) (m : UseCnt) (prevStates : MemStateVec)
    (memo : GroupMemo) : SchedResult × UseCnt × GroupMemo :=
  let ctx := groupCtx g m
  match gmFind memo ctx with
  | some r => (r, updateGroupUseCount g m, memo)
  | none =>
    let rpo := scheduleGroupRpo g m
    if rpo.1.states.peak + prevStates.latest ≤ prevStates.peak then
      (rpo.1, rpo.2, memo)
    else
      let dp := scheduleGroupDp g m
      (dp, rpo.2, gmInsert memo ctx dp)

/-!
## Claim C5 — soundness of the reverse-postorder fast path
-/

theorem foldl_rpo_init (g : Group) (l : List Nat) (acc : SchedResult × UseCnt)
    (h : acc.1.states.init = 0) :
    (l.foldl
      (fun (acc : SchedResult × UseCnt) vid =>
        let s := g.findSeq vid
        let r := scheduleSequence s acc.2
        (⟨acc.1.seq ++ r.1.seq, acc.1.states.extend r.1.states⟩, r.2))
      acc).1.states.init = 0 := by
  induction l generalizing acc with
  | nil => exact h
  | cons v rest ih =>
    apply ih
    exact h

theorem scheduleGroupRpo_init (g : Group) (m : UseCnt) :
    (scheduleGroupRpo g m).1.states.init = 0 :=
  foldl_rpo_init g _ _ rfl

theorem gmInsert_ne {memo : GroupMemo} {ctx : GroupContext} {r : SchedResult}
    (h : gmFind memo ctx = none) : gmInsert memo ctx r ≠ memo := by
  unfold gmInsert
  rw [h]
  intro he
  have hl := congrArg List.length he
  simp at hl

theorem scheduleGroupVertex_miss (g : Group) (m : UseCnt) (prev : MemStateVec)
    (memo : GroupMemo) (hmiss : gmFind memo (groupCtx g m) = none) :
    scheduleGroupVertex g m prev memo =
      (if (scheduleGroupRpo g m).1.states.peak + prev.latest ≤ prev.peak then
        ((scheduleGroupRpo g m).1, (scheduleGroupRpo g m).2, memo)
      else (scheduleGroupDp g m, (scheduleGroupRpo g m).2,
            gmInsert memo (groupCtx g m) (scheduleGroupDp g m))) := by
  simp only [scheduleGroupVertex, hmiss]

/-- C5: with no memo hit the group scheduler accepts the reverse-postorder
result exactly when `rpoPeak + prevLatest ≤ prevPeak` (acceptance leaves
the memo untouched, the DP path inserts into it), and under that condition
extending the outer MSV by the group's segment yields peak
`max(outerPeak, outerLatest + groupPeak)`, which equals the outer peak
before the group: an accepted RPO schedule never lifts the global peak. -/
theorem rpo_fast_path_sound (g : Group) (m : UseCnt) (prev : MemStateVec)
    (memo : GroupMemo) (hmiss : gmFind memo (groupCtx g m) = none) :
    ((scheduleGroupVertex g m prev memo).2.2 = memo ↔
      (scheduleGroupRpo g m).1.states.peak + prev.latest ≤ prev.peak) ∧
    ((scheduleGroupRpo g m).1.states.peak + prev.latest ≤ prev.peak →
      (scheduleGroupVertex g m prev memo).1 = (scheduleGroupRpo g m).1 ∧
      (prev.extend (scheduleGroupVertex g m prev memo).1.states).peak
        = max prev.peak
            (prev.latest + (scheduleGroupVertex g m prev memo).1.states.peak) ∧
      (prev.extend (scheduleGroupVertex g m prev memo).1.states).peak
        = prev.peak) := by
  rw [scheduleGroupVertex_miss g m prev memo hmiss]
  by_cases hc : (scheduleGroupRpo g m).1.states.peak + prev.latest ≤ prev.peak
  · rw [if_pos hc]
    refine ⟨⟨fun _ => hc, fun _ => rfl⟩, fun _ => ⟨rfl, ?_, ?_⟩⟩
    · exact extend_peak prev _ (scheduleGroupRpo_init g m)
    · rw [extend_peak prev _ (scheduleGroupRpo_init g m)]
      exact max_eq_left (by omega)
  · rw [if_neg hc]
    refine ⟨⟨fun he => absurd he (gmInsert_ne hmiss), fun h => absurd h hc⟩,
      fun h => absurd h hc⟩

/-- Witness for `rpo_fast_path_sound` on a concrete empty group with empty
memo, where the hypothesis (memo miss) holds by computation. -/
theorem rpo_fast_path_sound_witness :
    (scheduleGroupVertex ⟨0, [], [], [], [], [], []⟩ [] msvNil []).2.2
        = ([] : GroupMemo) ↔
      (scheduleGroupRpo ⟨0, [], [], [], [], [], []⟩ []).1.states.peak
          + msvNil.latest ≤ msvNil.peak :=
  (rpo_fast_path_sound ⟨0, [], [], [], [], [], []⟩ [] msvNil [] rfl).1

/-!
## Graph and `RandomSample` (source lines 32-61)
-/

/-- A graph input pseudo-vertex: its value and its successor operators
(`input->succs`; `initPredCount` casts every successor to an `Op`). -/
structure GraphInput where
  value : Value
  succs : List Nat
deriving DecidableEq, Repr

/-- The compute graph: input pseudo-vertices and the operator set. -/
structure Graph where
  inputs : List GraphInput
  ops : List Op
deriving DecidableEq, Repr

/-- Dereference an operator id (well-formed graphs have distinct ids). -/
def Graph.findOp (g : Graph) (i : Nat) : Op :=
  ((g.ops.filter (fun o => o.id = i)).head?).getD ⟨0, [], [], none, [], []⟩

/-- `initPredCount`: predecessor counts of all ops, with one decrement per
graph-input successor edge. -/
def initPredCount (g : Graph) : PredCnt :=
  let pc := g.ops.map (fun op => (op.id, op.preds.length))
  g.inputs.foldl (fun pc inp => inp.succs.foldl pcDec pc) pc

/-- `extractZeroPredOp`: move zero-count ops into the worklist (in map
order, `push_back`), then erase them from the map. -/
def extractZeroPredOp (pc : PredCnt) (zeroPred : List Nat) : PredCnt × List Nat :=
  let z2 := zeroPred ++ (pc.filter (fun p => p.2 = 0)).map (fun p => p.1)
  (pc.filter (fun p => ¬ p.1 ∈ z2), z2)

/-- The loop of `RandomSample`: pick a random zero-indegree op, schedule
it, decrement its op successors and extract new zero-indegree ops.  `rng`
is the stream of raw random draws, indexed by the number of ops already
scheduled; `fuel` bounds the iteration count (`|ops|` always suffices:
each iteration schedules one new op). -/
def randomSampleLoop (g : Graph) (rng : Nat → Nat) :
    Nat → PredCnt → List Nat → List Nat → List Nat
  | 0, _, _, sched => sched
  | fuel + 1, pc, zeroPred, sched =>
    match zeroPred with
    | [] => sched
    | zp0 :: zpRest =>
      let idx := rng sched.length % (zp0 :: zpRest).length
      let x := (zp0 :: zpRest).getD idx 0
      let zp1 := (zp0 :: zpRest).erase x
      let pc1 := (g.findOp x).succs.foldl
        (fun pc s => match s with
          | VRef.vop j => pcDec pc j
          | _ => pc) pc
      let ez := extractZeroPredOp pc1 zp1
      randomSampleLoop g rng fuel ez.1 ez.2 (sched ++ [x])

/-- `RandomSample` (source lines 47-61), returning the scheduled op ids. -/
def RandomSample (g : Graph) (rng : Nat → Nat) : List Nat :=
  let ez := extractZeroPredOp (initPredCount g) []
  randomSampleLoop g rng g.ops.length ez.1 ez.2 []

/-!
## Claim C10 — `RandomSample` produces a topological sort

Supporting notions: well-formedness of a graph (distinct op ids,
predecessor/successor duality with multiplicities, edges pointing at real
ops) and the count of dependency-edge "deliveries" into an op from the
not-yet-scheduled part of the graph.
-/

def opIds (g : Graph) : List Nat := g.ops.map (fun o => o.id)

/-- Number of input-pseudo-vertex edges into op `x`. -/
def inputDeliv (g : Graph) (x : Nat) : Nat :=
  (g.inputs.map (fun inp => inp.succs.count x)).sum

/-- Number of op-to-op edges into `x` whose source op is not in `sched`. -/
def remDeliv (g : Graph) (sched : List Nat) (x : Nat) : Nat :=
  ((g.ops.filter (fun u => ¬ u.id ∈ sched)).map
    (fun u => u.succs.count (VRef.vop x))).sum

/-- Total number of op-to-op edges into `x`. -/
def totalOpDeliv (g : Graph) (x : Nat) : Nat :=
  (g.ops.map (fun u => u.succs.count (VRef.vop x))).sum

/-- Targets of the `Is<Op>(succ)`-guarded decrement. -/
def vopTargets (l : List VRef) : List Nat :=
  l.filterMap (fun s => match s with
    | VRef.vop j => some j
    | _ => none)

theorem vopTargets_cons_vin (i : Nat) (rest : List VRef) :
    vopTargets (VRef.vin i :: rest) = vopTargets rest := by
  simp [vopTargets, List.filterMap_cons]

theorem vopTargets_cons_vout (i : Nat) (rest : List VRef) :
    vopTargets (VRef.vout i :: rest) = vopTargets rest := by
  simp [vopTargets, List.filterMap_cons]

theorem vopTargets_cons_vop (i : Nat) (rest : List VRef) :
    vopTargets (VRef.vop i :: rest) = i :: vopTargets rest := by
  simp [vopTargets, List.filterMap_cons]

theorem foldVop_eq (l : List VRef) (pc : PredCnt) :
    l.foldl (fun pc s => match s with
      | VRef.vop j => pcDec pc j
      | _ => pc) pc
      = (vopTargets l).foldl pcDec pc := by
  induction l generalizing pc with
  | nil => rfl
  | cons s rest ih =>
    cases s with
    | vin i =>
      rw [vopTargets_cons_vin]
      exact ih pc
    | vop i =>
      rw [vopTargets_cons_vop]
      exact ih (pcDec pc i)
    | vout i =>
      rw [vopTargets_cons_vout]
      exact ih pc

theorem vopTargets_count (l : List VRef) (j : Nat) :
    (vopTargets l).count j = l.count (VRef.vop j) := by
  induction l with
  | nil => rfl
  | cons s rest ih =>
    cases s with
    | vin i =>
      rw [List.count_cons_of_ne (by simp), vopTargets_cons_vin, ih]
    | vop i =>
      rw [vopTargets_cons_vop]
      by_cases hij : i = j
      · subst hij
        rw [List.count_cons_self, List.count_cons_self, ih]
      · rw [List.count_cons_of_ne (by omega),
          List.count_cons_of_ne (by simp [Ne.symm hij]), ih]
    | vout i =>
      rw [List.count_cons_of_ne (by simp), vopTargets_cons_vout, ih]

theorem vopTargets_mem {l : List VRef} {j : Nat} :
    j ∈ vopTargets l ↔ VRef.vop j ∈ l := by
  rw [← List.count_pos_iff, ← List.count_pos_iff, vopTargets_count]

/-- Well-formedness of the input graph, as assumed by the scheduler: op
ids are distinct, all edges reference real ops, `preds` and `succs` are
dual (with multiplicity), and predecessor counts fit in `uint32_t`. -/
structure GraphWF (g : Graph) : Prop where
  idsNodup : (opIds g).Nodup
  inputsToOps : ∀ inp ∈ g.inputs, ∀ s ∈ inp.succs, s ∈ opIds g
  succsToOps : ∀ u ∈ g.ops, ∀ j ∈ vopTargets u.succs, j ∈ opIds g
  duality : ∀ v ∈ g.ops,
    v.preds.length = inputDeliv g v.id + totalOpDeliv g v.id
  predsSmall : ∀ v ∈ g.ops, v.preds.length < 4294967296
  predsDual : ∀ u ∈ g.ops, ∀ v ∈ g.ops,
    (VRef.vop u.id ∈ v.preds ↔ VRef.vop v.id ∈ u.succs)

/-!
### Association-list lemmas for `PredCnt`
-/

theorem pcFind_mem {m : PredCnt} {k c : Nat} (h : pcFind m k = some c) :
    (k, c) ∈ m := by
  induction m with
  | nil => simp [pcFind] at h
  | cons p rest ih =>
    simp only [pcFind] at h
    by_cases hp : p.1 = k
    · rw [if_pos hp] at h
      cases h
      have : p = (k, p.2) := by
        cases p
        simp only at hp
        rw [hp]
      rw [this] at *
      exact List.mem_cons_self _ _
    · rw [if_neg hp] at h
      exact List.mem_cons_of_mem _ (ih h)

theorem pcFind_set_self (m : PredCnt) (k c : Nat) :
    pcFind (pcSet m k c) k = some c := by
  induction m with
  | nil => simp [pcSet, pcFind]
  | cons p rest ih =>
    by_cases hp : p.1 = k
    · simp [pcSet, hp, pcFind]
    · simp [pcSet, hp, pcFind, ih]

theorem pcFind_set_ne (m : PredCnt) {k x : Nat} (c : Nat) (h : x ≠ k) :
    pcFind (pcSet m k c) x = pcFind m x := by
  have hkx : ¬ k = x := Ne.symm h
  induction m with
  | nil =>
    simp only [pcSet, pcFind]
    rw [if_neg hkx]
  | cons p rest ih =>
    simp only [pcSet]
    by_cases hp : p.1 = k
    · rw [if_pos hp]
      simp only [pcFind]
      rw [if_neg hkx, if_neg (show ¬ p.1 = x from hp ▸ hkx)]
    · rw [if_neg hp]
      simp only [pcFind]
      by_cases hx : p.1 = x
      · rw [if_pos hx, if_pos hx]
      · rw [if_neg hx, if_neg hx, ih]

theorem pcFind_isSome_iff {m : PredCnt} {k : Nat} :
    (pcFind m k).isSome = true ↔ k ∈ m.map (fun p => p.1) := by
  induction m with
  | nil => simp [pcFind]
  | cons p rest ih =>
    simp only [pcFind, List.map_cons, List.mem_cons]
    by_cases hp : p.1 = k
    · rw [if_pos hp]
      simp [hp]
    · rw [if_neg hp]
      rw [ih]
      constructor
      · intro h
        exact Or.inr h
      · rintro (h | h)
        · exact absurd h.symm hp
        · exact h

theorem pcSet_keys_of_mem {m : PredCnt} {k : Nat} (c : Nat)
    (h : k ∈ m.map (fun p => p.1)) :
    (pcSet m k c).map (fun p => p.1) = m.map (fun p => p.1) := by
  induction m with
  | nil => simp at h
  | cons p rest ih =>
    by_cases hp : p.1 = k
    · simp only [pcSet]
      rw [if_pos hp]
      simp [hp]
    · simp only [pcSet]
      rw [if_neg hp]
      simp only [List.map_cons]
      simp only [List.map_cons, List.mem_cons] at h
      rcases h with h | h
      · exact absurd h.symm hp
      · rw [ih h]

theorem pcDec_keys {m : PredCnt} {k : Nat} (h : k ∈ m.map (fun p => p.1)) :
    (pcDec m k).map (fun p => p.1) = m.map (fun p => p.1) :=
  pcSet_keys_of_mem _ h

theorem pcDec_find_self {m : PredCnt} {k v : Nat} (h : pcFind m k = some v) :
    pcFind (pcDec m k) k = some (u32sub1 v) := by
  unfold pcDec
  rw [h]
  exact pcFind_set_self m k _

theorem pcDec_find_ne (m : PredCnt) {k x : Nat} (h : x ≠ k) :
    pcFind (pcDec m k) x = pcFind m x :=
  pcFind_set_ne m _ h

/-!
### Graph lookup and delivery-count lemmas
-/

theorem filter_id_eq_list {l : List Op} (hn : (l.map (fun o => o.id)).Nodup)
    {v : Op} (hv : v ∈ l) :
    l.filter (fun o => o.id = v.id) = [v] := by
  induction l with
  | nil => simp at hv
  | cons u rest ih =>
    simp only [List.map_cons, List.nodup_cons] at hn
    rcases List.mem_cons.mp hv with hvu | hvr
    · subst hvu
      rw [List.filter_cons_of_pos (by simp)]
      have hnil : rest.filter (fun o => o.id = v.id) = [] := by
        rw [List.filter_eq_nil_iff]
        intro o ho
        simp only [decide_eq_true_eq]
        intro he
        exact hn.1 (he ▸ List.mem_map_of_mem (fun o => o.id) ho)
      rw [hnil]
    · have hne : ¬ u.id = v.id := by
        intro he
        exact hn.1 (he ▸ List.mem_map_of_mem (fun o => o.id) hvr)
      rw [List.filter_cons_of_neg (by simp [hne])]
      exact ih hn.2 hvr

theorem filter_id_eq {g : Graph} (hn : (opIds g).Nodup) {v : Op}
    (hv : v ∈ g.ops) :
    g.ops.filter (fun o => o.id = v.id) = [v] :=
  filter_id_eq_list hn hv

theorem findOp_eq {g : Graph} (hn : (opIds g).Nodup) {v : Op}
    (hv : v ∈ g.ops) : g.findOp v.id = v := by
  unfold Graph.findOp
  rw [filter_id_eq hn hv]
  rfl

theorem findOp_spec {g : Graph} (hn : (opIds g).Nodup) {x : Nat}
    (hx : x ∈ opIds g) : g.findOp x ∈ g.ops ∧ (g.findOp x).id = x := by
  obtain ⟨v, hv, hvx⟩ := List.mem_map.mp hx
  subst hvx
  rw [findOp_eq hn hv]
  exact ⟨hv, rfl⟩

theorem pcFind_of_map {l : List Op} (f : Op → Nat)
    (hn : (l.map (fun o => o.id)).Nodup) {v : Op} (hv : v ∈ l) :
    pcFind (l.map (fun o => (o.id, f o))) v.id = some (f v) := by
  induction l with
  | nil => simp at hv
  | cons u rest ih =>
    simp only [List.map_cons, List.nodup_cons] at hn
    simp only [List.map_cons, pcFind]
    rcases List.mem_cons.mp hv with hvu | hvr
    · subst hvu
      rw [if_pos rfl]
    · have hne : ¬ u.id = v.id := by
        intro he
        exact hn.1 (he ▸ List.mem_map_of_mem (fun o => o.id) hvr)
      rw [if_neg hne]
      exact ih hn.2 hvr

theorem u32sub1_eq_sub {v : Nat} (h1 : 1 ≤ v) (h2 : v < 4294967296) :
    u32sub1 v = v - 1 := by
  unfold u32sub1
  omega

theorem foldDec_keys (L : List Nat) (pc : PredCnt)
    (hmem : ∀ x ∈ L, x ∈ pc.map (fun p => p.1)) :
    (L.foldl pcDec pc).map (fun p => p.1) = pc.map (fun p => p.1) := by
  induction L generalizing pc with
  | nil => rfl
  | cons y rest ih =>
    have hy : y ∈ pc.map (fun p => p.1) := hmem y (List.mem_cons_self _ _)
    have hk := pcDec_keys hy
    simp only [List.foldl_cons]
    rw [ih (pcDec pc y) (fun x hx => hk ▸ hmem x (List.mem_cons_of_mem _ hx)), hk]

theorem foldDec_find (L : List Nat) (pc : PredCnt)
    (hmem : ∀ x ∈ L, x ∈ pc.map (fun p => p.1)) :
    ∀ x v, pcFind pc x = some v → L.count x ≤ v → v < 4294967296 →
      pcFind (L.foldl pcDec pc) x = some (v - L.count x) := by
  induction L generalizing pc with
  | nil =>
    intro x v h _ _
    simpa using h
  | cons y rest ih =>
    intro x v hfind hcnt hlt
    have hy : y ∈ pc.map (fun p => p.1) := hmem y (List.mem_cons_self _ _)
    have hk := pcDec_keys hy
    have hmem' : ∀ z ∈ rest, z ∈ (pcDec pc y).map (fun p => p.1) :=
      fun z hz => hk ▸ hmem z (List.mem_cons_of_mem _ hz)
    simp only [List.foldl_cons]
    by_cases hxy : x = y
    · subst hxy
      rw [List.count_cons_self] at hcnt
      have h1 : 1 ≤ v := by omega
      have hdec : pcFind (pcDec pc x) x = some (v - 1) := by
        rw [pcDec_find_self hfind, u32sub1_eq_sub h1 hlt]
      have := ih (pcDec pc x) hmem' x (v - 1) hdec (by omega) (by omega)
      rw [this]
      congr 1
      rw [List.count_cons_self]
      omega
    · have hdec : pcFind (pcDec pc y) x = pcFind pc x := pcDec_find_ne pc hxy
      have hcnt' : rest.count x ≤ v := by
        rw [List.count_cons_of_ne hxy] at hcnt
        exact hcnt
      have hout := ih (pcDec pc y) hmem' x v (by rw [hdec]; exact hfind) hcnt' hlt
      rw [hout, List.count_cons_of_ne hxy]

theorem filter_snoc_sum (l : List Op) (f : Op → Nat) (sched : List Nat)
    (x : Nat) :
    ((l.filter (fun u => ¬ u.id ∈ sched)).map f).sum =
      ((l.filter (fun u => ¬ u.id ∈ sched ++ [x])).map f).sum +
      ((l.filter (fun u => u.id = x ∧ ¬ u.id ∈ sched)).map f).sum := by
  induction l with
  | nil => simp
  | cons u rest ih =>
    by_cases h1 : u.id ∈ sched
    · rw [List.filter_cons_of_neg (by simp [h1]),
        List.filter_cons_of_neg (by simp [List.mem_append, h1]),
        List.filter_cons_of_neg (by simp [h1])]
      exact ih
    · by_cases h2 : u.id = x
      · rw [List.filter_cons_of_pos (by simp [h1]),
          List.filter_cons_of_neg (by simp [List.mem_append, h2]),
          List.filter_cons_of_pos (by
            simp only [decide_eq_true_eq]
            exact ⟨h2, h1⟩)]
        simp only [List.map_cons, List.sum_cons]
        omega
      · rw [List.filter_cons_of_pos (by simp [h1]),
          List.filter_cons_of_pos (by simp [List.mem_append, h1, h2]),
          List.filter_cons_of_neg (by simp [h2])]
        simp only [List.map_cons, List.sum_cons]
        omega

theorem filter_eq_single {g : Graph} (hn : (opIds g).Nodup) {x : Nat}
    (hx : x ∈ opIds g) {sched : List Nat} (hxs : x ∉ sched) :
    g.ops.filter (fun u => u.id = x ∧ ¬ u.id ∈ sched) = [g.findOp x] := by
  obtain ⟨v, hv, hvx⟩ := List.mem_map.mp hx
  subst hvx
  rw [findOp_eq hn hv]
  rw [List.filter_congr (q := fun u => u.id = v.id)
    (fun u _ => by
      by_cases h : u.id = v.id
      · simp [h, hxs]
      · simp [h])]
  exact filter_id_eq hn hv

theorem remDeliv_snoc (g : Graph) (hn : (opIds g).Nodup) {x : Nat}
    (hx : x ∈ opIds g) (sched : List Nat) (hxs : x ∉ sched) (j : Nat) :
    remDeliv g sched j =
      remDeliv g (sched ++ [x]) j +
        (g.findOp x).succs.count (VRef.vop j) := by
  unfold remDeliv
  rw [filter_snoc_sum g.ops (fun u => u.succs.count (VRef.vop j)) sched x,
    filter_eq_single hn hx hxs]
  simp

theorem remDeliv_nil (g : Graph) (j : Nat) :
    remDeliv g [] j = totalOpDeliv g j := by
  unfold remDeliv totalOpDeliv
  simp

/-!
### The Kahn invariant of the `RandomSample` loop
-/

theorem assoc_nodup_eq {pc : PredCnt} (hn : (pc.map (fun p => p.1)).Nodup)
    {p q : Nat × Nat} (hp : p ∈ pc) (hq : q ∈ pc) (h : p.1 = q.1) : p = q := by
  induction pc with
  | nil => simp at hp
  | cons r rest ih =>
    simp only [List.map_cons, List.nodup_cons] at hn
    rcases List.mem_cons.mp hp with hp1 | hp1 <;>
      rcases List.mem_cons.mp hq with hq1 | hq1
    · rw [hp1, hq1]
    · exfalso
      apply hn.1
      rw [← hp1, h]
      exact List.mem_map_of_mem (fun p => p.1) hq1
    · exfalso
      apply hn.1
      rw [← hq1, ← h]
      exact List.mem_map_of_mem (fun p => p.1) hp1
    · exact ih hn.2 hp1 hq1

theorem mem_iff_find {pc : PredCnt} (hn : (pc.map (fun p => p.1)).Nodup)
    {k c : Nat} : (k, c) ∈ pc ↔ pcFind pc k = some c := by
  constructor
  · intro hm
    cases hf : pcFind pc k with
    | none =>
      exfalso
      have : (pcFind pc k).isSome = true :=
        pcFind_isSome_iff.mpr (List.mem_map_of_mem (fun p => p.1) hm)
      rw [hf] at this
      simp at this
    | some c2 =>
      have hm2 := pcFind_mem hf
      have := assoc_nodup_eq hn hm hm2 rfl
      cases this
      rfl
  · exact pcFind_mem

theorem keys_filter_sublist (pc : PredCnt) (p : Nat × Nat → Bool) :
    ((pc.filter p).map (fun q => q.1)).Sublist (pc.map (fun q => q.1)) :=
  (List.filter_sublist pc).map _

theorem extractZeroPredOp_fst {pc : PredCnt} {zp : List Nat}
    (hn : (pc.map (fun p => p.1)).Nodup) (hdisj : ∀ p ∈ pc, p.1 ∉ zp) :
    (extractZeroPredOp pc zp).1 = pc.filter (fun p => ¬ p.2 = 0) := by
  unfold extractZeroPredOp
  simp only
  apply List.filter_congr
  intro p hp
  rw [decide_eq_decide]
  constructor
  · intro hnm
    intro h0
    apply hnm
    apply List.mem_append_right
    exact List.mem_map_of_mem (fun q => q.1)
      (show p ∈ pc.filter (fun q => q.2 = 0) from
        List.mem_filter.mpr ⟨hp, decide_eq_true h0⟩)
  · intro h0 hmem
    rcases List.mem_append.mp hmem with h | h
    · exact hdisj p hp h
    · obtain ⟨q, hq, hqp⟩ := List.mem_map.mp h
      have hq2 := List.mem_filter.mp hq
      have : q = p := assoc_nodup_eq hn hq2.1 hp hqp
      apply h0
      rw [← this]
      simpa using hq2.2

theorem extractZeroPredOp_snd (pc : PredCnt) (zp : List Nat) :
    (extractZeroPredOp pc zp).2 =
      zp ++ (pc.filter (fun p => p.2 = 0)).map (fun p => p.1) := rfl

theorem remDeliv_le_total (g : Graph) (sched : List Nat) (x : Nat) :
    remDeliv g sched x ≤ totalOpDeliv g x := by
  unfold remDeliv totalOpDeliv
  induction g.ops with
  | nil => simp
  | cons u rest ih =>
    by_cases h : u.id ∈ sched
    · rw [List.filter_cons_of_neg (by simp [h])]
      simp only [List.map_cons, List.sum_cons]
      omega
    · rw [List.filter_cons_of_pos (by simp [h])]
      simp only [List.map_cons, List.sum_cons]
      omega

theorem remDeliv_pos_of_edge (g : Graph) (hn : (opIds g).Nodup)
    {sched : List Nat} {x j : Nat} (hx : x ∈ opIds g) (hxs : x ∉ sched)
    (hedge : VRef.vop j ∈ (g.findOp x).succs) :
    0 < remDeliv g sched j := by
  obtain ⟨hmem, hid⟩ := findOp_spec hn hx
  unfold remDeliv
  have hin : g.findOp x ∈ g.ops.filter (fun u => ¬ u.id ∈ sched) :=
    List.mem_filter.mpr ⟨hmem, by simp [hid, hxs]⟩
  have hterm : (g.findOp x).succs.count (VRef.vop j) ∈
      (g.ops.filter (fun u => ¬ u.id ∈ sched)).map
        (fun u => u.succs.count (VRef.vop j)) :=
    List.mem_map_of_mem _ hin
  have hle := List.single_le_sum (fun b _ => Nat.zero_le b) _ hterm
  have hpos : 0 < (g.findOp x).succs.count (VRef.vop j) :=
    List.count_pos_iff.mpr hedge
  omega

/-- The invariant of the Kahn worklist loop: `sched`, the zero-indegree
list and the predecessor-count keys partition the op ids; every count
equals the number of dependency edges from not-yet-scheduled ops; every
scheduled or frontier op has all its op dependencies scheduled; and the
schedule so far has no backward edge. -/
structure KahnInv (g : Graph) (pc : PredCnt) (zp sched : List Nat) : Prop where
  pcKeysNodup : (pc.map (fun p => p.1)).Nodup
  zpNodup : zp.Nodup
  schedNodup : sched.Nodup
  zpNotSched : ∀ x ∈ zp, x ∉ sched
  pcNotSched : ∀ p ∈ pc, p.1 ∉ sched
  pcNotZp : ∀ p ∈ pc, p.1 ∉ zp
  cover : ∀ x, x ∈ opIds g ↔ (x ∈ sched ∨ x ∈ zp ∨ x ∈ pc.map (fun p => p.1))
  pcVal : ∀ p ∈ pc, p.2 = remDeliv g sched p.1 ∧ p.2 ≠ 0
  zpVal : ∀ x ∈ zp, remDeliv g sched x = 0
  schedVal : ∀ x ∈ sched, remDeliv g sched x = 0
  sound : sched.Pairwise (fun a b => ¬ VRef.vop a ∈ (g.findOp b).succs)

theorem exists_min_by {α : Type} (f : α → Nat) :
    ∀ (l : List α), l ≠ [] → ∃ a ∈ l, ∀ b ∈ l, f a ≤ f b := by
  intro l
  induction l with
  | nil =>
    intro h
    exact absurd rfl h
  | cons x rest ih =>
    intro _
    by_cases hr : rest = []
    · subst hr
      refine ⟨x, List.mem_cons_self _ _, ?_⟩
      intro b hb
      rcases List.mem_cons.mp hb with hb | hb
      · rw [hb]
      · simp at hb
    · obtain ⟨a, ha, hmin⟩ := ih hr
      by_cases hc : f x ≤ f a
      · refine ⟨x, List.mem_cons_self _ _, ?_⟩
        intro b hb
        rcases List.mem_cons.mp hb with hb | hb
        · rw [hb]
        · exact le_trans hc (hmin b hb)
      · refine ⟨a, List.mem_cons_of_mem _ ha, ?_⟩
        intro b hb
        rcases List.mem_cons.mp hb with hb | hb
        · rw [hb]
          omega
        · exact hmin b hb

theorem sum_ne_zero_exists {l : List Op} {f : Op → Nat}
    (h : (l.map f).sum ≠ 0) : ∃ u ∈ l, f u ≠ 0 := by
  by_contra hc
  push_neg at hc
  apply h
  apply List.sum_eq_zero
  intro x hx
  obtain ⟨u, hu, hux⟩ := List.mem_map.mp hx
  rw [← hux]
  exact hc u hu

/-- If the frontier is empty, the invariant plus acyclicity force the
predecessor-count map to be empty as well. -/
theorem pc_empty_of_zp_empty (g : Graph) (rank : Nat → Nat)
    (hrank : ∀ u ∈ g.ops, ∀ j ∈ vopTargets u.succs, rank u.id < rank j)
    {pc : PredCnt} {sched : List Nat} (inv : KahnInv g pc [] sched) :
    pc = [] := by
  by_contra hne
  obtain ⟨p, hp, hmin⟩ := exists_min_by (fun p => rank p.1) pc hne
  obtain ⟨hval, hnz⟩ := inv.pcVal p hp
  have hrd : remDeliv g sched p.1 ≠ 0 := by
    rw [← hval]
    exact hnz
  obtain ⟨u, hu, hunz⟩ := sum_ne_zero_exists hrd
  have hu2 := List.mem_filter.mp hu
  have huop : u ∈ g.ops := hu2.1
  have huns : u.id ∉ sched := by
    have := hu2.2
    simp at this
    exact this
  have hedge : VRef.vop p.1 ∈ u.succs := by
    rw [← List.count_pos_iff]
    omega
  have hrk : rank u.id < rank p.1 :=
    hrank u huop p.1 (vopTargets_mem.mpr hedge)
  have huid : u.id ∈ opIds g := List.mem_map_of_mem (fun o => o.id) huop
  rcases (inv.cover u.id).mp huid with h | h | h
  · exact huns h
  · simp at h
  · obtain ⟨q, hq, hqid⟩ := List.mem_map.mp h
    have := hmin q hq
    rw [hqid] at this
    omega

/-- Re-establishing the Kahn invariant after `extractZeroPredOp`: if the
count map stores exactly the remaining-delivery counts and the other
bookkeeping holds, moving the zero entries to the worklist yields the
invariant. -/
theorem extract_inv (g : Graph) (pcIn : PredCnt) (zpIn sched : List Nat)
    (hn1 : (pcIn.map (fun p => p.1)).Nodup)
    (hzn : zpIn.Nodup)
    (hsn : sched.Nodup)
    (hzs : ∀ y ∈ zpIn, y ∉ sched)
    (hps : ∀ k ∈ pcIn.map (fun p => p.1), k ∉ sched)
    (hpz : ∀ k ∈ pcIn.map (fun p => p.1), k ∉ zpIn)
    (hcov : ∀ y, y ∈ opIds g ↔
      (y ∈ sched ∨ y ∈ zpIn ∨ y ∈ pcIn.map (fun p => p.1)))
    (hfind : ∀ p ∈ pcIn, p.2 = remDeliv g sched p.1)
    (hzv : ∀ y ∈ zpIn, remDeliv g sched y = 0)
    (hsv : ∀ y ∈ sched, remDeliv g sched y = 0)
    (hsnd : sched.Pairwise (fun a b => ¬ VRef.vop a ∈ (g.findOp b).succs)) :
    KahnInv g (extractZeroPredOp pcIn zpIn).1 (extractZeroPredOp pcIn zpIn).2
      sched := by
  have hdisj : ∀ p ∈ pcIn, p.1 ∉ zpIn :=
    fun p hp => hpz p.1 (List.mem_map_of_mem (fun q => q.1) hp)
  have hfst := extractZeroPredOp_fst hn1 hdisj
  have hsnd2 := extractZeroPredOp_snd pcIn zpIn
  have memEz1 : ∀ p, p ∈ (extractZeroPredOp pcIn zpIn).1 ↔
      (p ∈ pcIn ∧ ¬ p.2 = 0) := by
    intro p
    rw [hfst, List.mem_filter]
    simp only [decide_eq_true_eq]
  have zerosChar : ∀ k, k ∈ (pcIn.filter (fun p => p.2 = 0)).map (fun p => p.1)
      ↔ ∃ p ∈ pcIn, p.2 = 0 ∧ p.1 = k := by
    intro k
    rw [List.mem_map]
    constructor
    · rintro ⟨p, hp, hpk⟩
      have h2 := List.mem_filter.mp hp
      exact ⟨p, h2.1, by simpa using h2.2, hpk⟩
    · rintro ⟨p, hp, h0, hpk⟩
      exact ⟨p, List.mem_filter.mpr ⟨hp, by simp [h0]⟩, hpk⟩
  have zerosKeys : ∀ k, k ∈ (pcIn.filter (fun p => p.2 = 0)).map (fun p => p.1)
      → k ∈ pcIn.map (fun p => p.1) := by
    intro k hk
    obtain ⟨p, hp, h0, hpk⟩ := (zerosChar k).mp hk
    exact hpk ▸ List.mem_map_of_mem (fun q => q.1) hp
  have ez1Keys : ∀ k, k ∈ ((extractZeroPredOp pcIn zpIn).1).map (fun p => p.1)
      → k ∈ pcIn.map (fun p => p.1) := by
    intro k hk
    rw [hfst] at hk
    exact (keys_filter_sublist pcIn _).mem hk
  refine ⟨?_, ?_, hsn, ?_, ?_, ?_, ?_, ?_, ?_, hsv, hsnd⟩
  · rw [hfst]
    exact (keys_filter_sublist pcIn _).nodup hn1
  · rw [hsnd2]
    refine List.Nodup.append hzn ((keys_filter_sublist pcIn _).nodup hn1) ?_
    intro a ha hb
    exact hpz a (zerosKeys a hb) ha
  · intro y hy
    rw [hsnd2] at hy
    rcases List.mem_append.mp hy with h | h
    · exact hzs y h
    · exact hps y (zerosKeys y h)
  · intro p hp
    exact hps p.1 (ez1Keys p.1 (List.mem_map_of_mem (fun q => q.1) hp))
  · intro p hp
    obtain ⟨hpc, hnz⟩ := (memEz1 p).mp hp
    rw [hsnd2]
    intro hmem
    rcases List.mem_append.mp hmem with h | h
    · exact hpz p.1 (List.mem_map_of_mem (fun q => q.1) hpc) h
    · obtain ⟨q, hq, h0, hqk⟩ := (zerosChar p.1).mp h
      have : q = p := assoc_nodup_eq hn1 hq hpc hqk
      rw [this] at h0
      exact hnz h0
  · intro y
    rw [hsnd2]
    constructor
    · intro hy
      rcases (hcov y).mp hy with h | h | h
      · exact Or.inl h
      · exact Or.inr (Or.inl (List.mem_append_left _ h))
      · obtain ⟨p, hp, hpk⟩ := List.mem_map.mp h
        by_cases h0 : p.2 = 0
        · refine Or.inr (Or.inl (List.mem_append_right _ ?_))
          exact (zerosChar y).mpr ⟨p, hp, h0, hpk⟩
        · refine Or.inr (Or.inr ?_)
          exact hpk ▸ List.mem_map_of_mem (fun q => q.1)
            ((memEz1 p).mpr ⟨hp, h0⟩)
    · intro hy
      rcases hy with h | h | h
      · exact (hcov y).mpr (Or.inl h)
      · rcases List.mem_append.mp h with h2 | h2
        · exact (hcov y).mpr (Or.inr (Or.inl h2))
        · exact (hcov y).mpr (Or.inr (Or.inr (zerosKeys y h2)))
      · exact (hcov y).mpr (Or.inr (Or.inr (ez1Keys y h)))
  · intro p hp
    obtain ⟨hpc, hnz⟩ := (memEz1 p).mp hp
    exact ⟨hfind p hpc, hnz⟩
  · intro y hy
    rw [hsnd2] at hy
    rcases List.mem_append.mp hy with h | h
    · exact hzv y h
    · obtain ⟨p, hp, h0, hpk⟩ := (zerosChar y).mp h
      rw [← hpk, ← hfind p hp]
      exact h0

/-- One iteration of the `RandomSample` loop preserves the Kahn
invariant, for any op `x` chosen from the zero-indegree worklist. -/
theorem kahn_step (g : Graph) (hwf : GraphWF g)
    {pc : PredCnt} {zp sched : List Nat} (inv : KahnInv g pc zp sched)
    {x : Nat} (hxzp : x ∈ zp) :
    KahnInv g
      (extractZeroPredOp
        ((g.findOp x).succs.foldl (fun pc s => match s with
          | VRef.vop j => pcDec pc j
          | _ => pc) pc) (zp.erase x)).1
      (extractZeroPredOp
        ((g.findOp x).succs.foldl (fun pc s => match s with
          | VRef.vop j => pcDec pc j
          | _ => pc) pc) (zp.erase x)).2
      (sched ++ [x]) := by
  rw [foldVop_eq]
  have hxids : x ∈ opIds g := (inv.cover x).mpr (Or.inr (Or.inl hxzp))
  have hxns : x ∉ sched := inv.zpNotSched x hxzp
  obtain ⟨hgxmem, hgxid⟩ := findOp_spec hwf.idsNodup hxids
  have hpsK : ∀ k ∈ pc.map (fun p => p.1), k ∉ sched := by
    intro k hk
    obtain ⟨p, hp, hpk⟩ := List.mem_map.mp hk
    exact hpk ▸ inv.pcNotSched p hp
  have hpzK : ∀ k ∈ pc.map (fun p => p.1), k ∉ zp := by
    intro k hk
    obtain ⟨p, hp, hpk⟩ := List.mem_map.mp hk
    exact hpk ▸ inv.pcNotZp p hp
  have hxnk : x ∉ pc.map (fun p => p.1) := fun hk => hpzK x hk hxzp
  have hTkeys : ∀ j ∈ vopTargets (g.findOp x).succs,
      j ∈ pc.map (fun p => p.1) := by
    intro j hj
    have hedge : VRef.vop j ∈ (g.findOp x).succs := vopTargets_mem.mp hj
    have hpos := remDeliv_pos_of_edge g hwf.idsNodup hxids hxns hedge
    have hjids : j ∈ opIds g := hwf.succsToOps _ hgxmem j hj
    rcases (inv.cover j).mp hjids with h | h | h
    · have := inv.schedVal j h
      omega
    · have := inv.zpVal j h
      omega
    · exact h
  have hkeys1 : ((vopTargets (g.findOp x).succs).foldl pcDec pc).map
      (fun p => p.1) = pc.map (fun p => p.1) :=
    foldDec_keys _ pc hTkeys
  have hsnocId : ∀ j, remDeliv g sched j =
      remDeliv g (sched ++ [x]) j + (g.findOp x).succs.count (VRef.vop j) :=
    fun j => remDeliv_snoc g hwf.idsNodup hxids sched hxns j
  have hfind1 : ∀ p ∈ pc,
      pcFind ((vopTargets (g.findOp x).succs).foldl pcDec pc) p.1 =
        some (remDeliv g (sched ++ [x]) p.1) := by
    intro p hp
    obtain ⟨hval, hnz⟩ := inv.pcVal p hp
    have hkk : p.1 ∈ pc.map (fun q => q.1) :=
      List.mem_map_of_mem (fun q => q.1) hp
    have hkids : p.1 ∈ opIds g := (inv.cover p.1).mpr (Or.inr (Or.inr hkk))
    obtain ⟨hkmem, hkid⟩ := findOp_spec hwf.idsNodup hkids
    have hd := hwf.duality _ hkmem
    rw [hkid] at hd
    have hsmall := hwf.predsSmall _ hkmem
    have hle := remDeliv_le_total g sched p.1
    have hcid := hsnocId p.1
    have hvc := vopTargets_count (g.findOp x).succs p.1
    have hcnt : (vopTargets (g.findOp x).succs).count p.1 ≤ p.2 := by
      omega
    have hfind0 : pcFind pc p.1 = some p.2 :=
      (mem_iff_find inv.pcKeysNodup).mp hp
    have hout := foldDec_find _ pc hTkeys p.1 p.2 hfind0 hcnt (by omega)
    rw [hout]
    congr 1
    omega
  have hn1 : (((vopTargets (g.findOp x).succs).foldl pcDec pc).map
      (fun p => p.1)).Nodup := by
    rw [hkeys1]
    exact inv.pcKeysNodup
  apply extract_inv
  · exact hn1
  · exact inv.zpNodup.erase x
  · refine List.Nodup.append inv.schedNodup (List.nodup_singleton x) ?_
    intro a ha hb
    rcases List.mem_cons.mp hb with h | h
    · exact hxns (h ▸ ha)
    · simp at h
  · intro y hy
    have hy2 := (inv.zpNodup.mem_erase_iff).mp hy
    intro hmem
    rcases List.mem_append.mp hmem with h | h
    · exact inv.zpNotSched y hy2.2 h
    · rcases List.mem_cons.mp h with h2 | h2
      · exact hy2.1 h2
      · simp at h2
  · intro k hk
    rw [hkeys1] at hk
    intro hmem
    rcases List.mem_append.mp hmem with h | h
    · exact hpsK k hk h
    · rcases List.mem_cons.mp h with h2 | h2
      · exact (h2 ▸ hxnk) hk
      · simp at h2
  · intro k hk
    rw [hkeys1] at hk
    intro hmem
    exact hpzK k hk (List.erase_subset _ _ hmem)
  · intro y
    rw [hkeys1]
    constructor
    · intro hy
      rcases (inv.cover y).mp hy with h | h | h
      · exact Or.inl (List.mem_append_left _ h)
      · by_cases hyx : y = x
        · exact Or.inl (List.mem_append_right _ (by simp [hyx]))
        · exact Or.inr (Or.inl ((inv.zpNodup.mem_erase_iff).mpr ⟨hyx, h⟩))
      · exact Or.inr (Or.inr h)
    · intro hy
      rcases hy with h | h | h
      · rcases List.mem_append.mp h with h2 | h2
        · exact (inv.cover y).mpr (Or.inl h2)
        · rcases List.mem_cons.mp h2 with h3 | h3
          · exact h3 ▸ hxids
          · simp at h3
      · exact (inv.cover y).mpr
          (Or.inr (Or.inl (List.erase_subset _ _ h)))
      · exact (inv.cover y).mpr (Or.inr (Or.inr h))
  · intro p hp
    have hkk : p.1 ∈ ((vopTargets (g.findOp x).succs).foldl pcDec pc).map
        (fun q => q.1) := List.mem_map_of_mem (fun q => q.1) hp
    have hfd : pcFind ((vopTargets (g.findOp x).succs).foldl pcDec pc) p.1
        = some p.2 := (mem_iff_find hn1).mp hp
    rw [hkeys1] at hkk
    obtain ⟨q, hq, hqk⟩ := List.mem_map.mp hkk
    have := hfind1 q hq
    rw [hqk] at this
    rw [this] at hfd
    exact (Option.some.injEq _ _ ▸ hfd :
      remDeliv g (sched ++ [x]) p.1 = p.2).symm
  · intro y hy
    have hy2 := (inv.zpNodup.mem_erase_iff).mp hy
    have h0 := inv.zpVal y hy2.2
    have := hsnocId y
    omega
  · intro y hy
    rcases List.mem_append.mp hy with h | h
    · have h0 := inv.schedVal y h
      have := hsnocId y
      omega
    · rcases List.mem_cons.mp h with h2 | h2
      · subst h2
        have h0 := inv.zpVal y hxzp
        have := hsnocId y
        omega
      · simp at h2
  · rw [List.pairwise_append]
    refine ⟨inv.sound, List.pairwise_singleton _ _, ?_⟩
    intro a ha b hb
    rcases List.mem_cons.mp hb with h2 | h2
    · subst h2
      intro hedge
      have hpos := remDeliv_pos_of_edge g hwf.idsNodup hxids hxns hedge
      have h0 := inv.schedVal a ha
      omega
    · simp at h2

theorem sched_complete_of_length (g : Graph) {sched : List Nat}
    (hsn : sched.Nodup) (hsub : ∀ y ∈ sched, y ∈ opIds g)
    (hlen : g.ops.length ≤ sched.length) :
    ∀ y, y ∈ sched ↔ y ∈ opIds g := by
  have hsp : sched.Subperm (opIds g) :=
    List.subperm_of_subset hsn (fun y hy => hsub y hy)
  have hidslen : (opIds g).length = g.ops.length := List.length_map _ _
  have hperm : sched.Perm (opIds g) :=
    hsp.perm_of_length_le (by omega)
  exact fun y => hperm.mem_iff

theorem getD_mem_of_lt {l : List Nat} {i : Nat} (h : i < l.length) (d : Nat) :
    l.getD i d ∈ l := by
  rw [List.getD_eq_getElem l d h]
  exact List.getElem_mem h

/-- The `RandomSample` loop, started in the Kahn invariant with enough
fuel, returns a duplicate-free list containing exactly the op ids, with
no backward dependency edge. -/
theorem randomSampleLoop_spec (g : Graph) (hwf : GraphWF g) (rank : Nat → Nat)
    (hrank : ∀ u ∈ g.ops, ∀ j ∈ vopTargets u.succs, rank u.id < rank j)
    (rng : Nat → Nat) :
    ∀ (fuel : Nat) (pc : PredCnt) (zp sched : List Nat),
      KahnInv g pc zp sched →
      g.ops.length ≤ fuel + sched.length →
      (randomSampleLoop g rng fuel pc zp sched).Nodup ∧
      (∀ y, y ∈ randomSampleLoop g rng fuel pc zp sched ↔ y ∈ opIds g) ∧
      (randomSampleLoop g rng fuel pc zp sched).Pairwise
        (fun a b => ¬ VRef.vop a ∈ (g.findOp b).succs) := by
  intro fuel
  induction fuel with
  | zero =>
    intro pc zp sched inv hlen
    have hrun : randomSampleLoop g rng 0 pc zp sched = sched := rfl
    rw [hrun]
    refine ⟨inv.schedNodup, ?_, inv.sound⟩
    exact sched_complete_of_length g inv.schedNodup
      (fun y hy => (inv.cover y).mpr (Or.inl hy)) (by omega)
  | succ f ih =>
    intro pc zp sched inv hlen
    cases zp with
    | nil =>
      have hpc := pc_empty_of_zp_empty g rank hrank inv
      subst hpc
      have hrun : randomSampleLoop g rng (f + 1) [] [] sched = sched := rfl
      rw [hrun]
      refine ⟨inv.schedNodup, ?_, inv.sound⟩
      intro y
      have := inv.cover y
      simpa using this.symm
    | cons z0 zrest =>
      have hlenpos : 0 < (z0 :: zrest).length := by simp
      have hidx : rng sched.length % (z0 :: zrest).length <
          (z0 :: zrest).length := Nat.mod_lt _ hlenpos
      have hx : (z0 :: zrest).getD
          (rng sched.length % (z0 :: zrest).length) 0 ∈ z0 :: zrest :=
        getD_mem_of_lt hidx 0
      have inv' := kahn_step g hwf inv hx
      have hlen' : g.ops.length ≤ f + (sched ++
          [(z0 :: zrest).getD (rng sched.length % (z0 :: zrest).length) 0]).length := by
        simp only [List.length_append, List.length_singleton]
        omega
      exact ih _ _ _ inv' hlen'

theorem initPredCount_base_keys (g : Graph) :
    (g.ops.map (fun op => (op.id, op.preds.length))).map (fun p => p.1)
      = opIds g := by
  rw [List.map_map]
  rfl

theorem foldl_inputs_bind (ls : List GraphInput) (pc : PredCnt) :
    ls.foldl (fun pc inp => inp.succs.foldl pcDec pc) pc
      = (ls.flatMap (fun inp => inp.succs)).foldl pcDec pc := by
  induction ls generalizing pc with
  | nil => rfl
  | cons i rest ih =>
    rw [List.foldl_cons, List.flatMap_cons, List.foldl_append]
    exact ih _

theorem count_bind_inputs (l : List GraphInput) (x : Nat) :
    ((l.flatMap (fun inp => inp.succs)).count x)
      = (l.map (fun inp => inp.succs.count x)).sum := by
  induction l with
  | nil => rfl
  | cons i rest ih =>
    rw [List.flatMap_cons, List.count_append, List.map_cons, List.sum_cons, ih]

theorem initPredCount_keys (g : Graph) (hwf : GraphWF g) :
    (initPredCount g).map (fun p => p.1) = opIds g := by
  unfold initPredCount
  simp only
  rw [foldl_inputs_bind, foldDec_keys, initPredCount_base_keys]
  intro x hx
  rw [initPredCount_base_keys]
  obtain ⟨inp, hinp, hxs⟩ := List.mem_flatMap.mp hx
  exact hwf.inputsToOps inp hinp x hxs

theorem initPredCount_find (g : Graph) (hwf : GraphWF g) {v : Op}
    (hv : v ∈ g.ops) :
    pcFind (initPredCount g) v.id = some (remDeliv g [] v.id) := by
  unfold initPredCount
  simp only
  rw [foldl_inputs_bind]
  have hbase : pcFind (g.ops.map (fun op => (op.id, op.preds.length))) v.id
      = some v.preds.length := pcFind_of_map _ hwf.idsNodup hv
  have hmem : ∀ x ∈ g.inputs.flatMap (fun inp => inp.succs),
      x ∈ (g.ops.map (fun op => (op.id, op.preds.length))).map
        (fun p => p.1) := by
    intro x hx
    rw [initPredCount_base_keys]
    obtain ⟨inp, hinp, hxs⟩ := List.mem_flatMap.mp hx
    exact hwf.inputsToOps inp hinp x hxs
  have hd := hwf.duality v hv
  have hsmall := hwf.predsSmall v hv
  have hcnt : (g.inputs.flatMap (fun inp => inp.succs)).count v.id
      = inputDeliv g v.id := count_bind_inputs _ _
  have hout := foldDec_find _ _ hmem v.id v.preds.length hbase
    (by rw [hcnt]; omega) (by omega)
  rw [hout, remDeliv_nil]
  congr 1
  rw [hcnt]
  omega

/-- The invariant holds at the start of `RandomSample`. -/
theorem randomSample_init_inv (g : Graph) (hwf : GraphWF g) :
    KahnInv g (extractZeroPredOp (initPredCount g) []).1
      (extractZeroPredOp (initPredCount g) []).2 [] := by
  have hkeys := initPredCount_keys g hwf
  have hn : ((initPredCount g).map (fun p => p.1)).Nodup := by
    rw [hkeys]
    exact hwf.idsNodup
  apply extract_inv
  · exact hn
  · exact List.nodup_nil
  · exact List.nodup_nil
  · intro y hy
    simp at hy
  · intro k _
    simp
  · intro k _
    simp
  · intro y
    rw [hkeys]
    simp
  · intro p hp
    have hkk : p.1 ∈ (initPredCount g).map (fun q => q.1) :=
      List.mem_map_of_mem (fun q => q.1) hp
    have hkids : p.1 ∈ opIds g := hkeys ▸ hkk
    obtain ⟨v, hv, hvk⟩ := List.mem_map.mp hkids
    have hfd : pcFind (initPredCount g) p.1 = some p.2 :=
      (mem_iff_find hn).mp hp
    have := initPredCount_find g hwf hv
    rw [hvk] at this
    rw [this] at hfd
    exact (Option.some.injEq _ _ ▸ hfd :
      remDeliv g [] p.1 = p.2).symm
  · intro y hy
    simp at hy
  · intro y hy
    simp at hy
  · exact List.Pairwise.nil

theorem sorted_position {g : Graph} {sched : List Nat}
    (hpw : sched.Pairwise (fun a b => ¬ VRef.vop a ∈ (g.findOp b).succs))
    {u v : Nat} (hu : u ∈ sched) (hv : v ∈ sched) (huv : u ≠ v)
    (hedge : VRef.vop v ∈ (g.findOp u).succs) :
    sched.indexOf u < sched.indexOf v := by
  have hiu : sched.indexOf u < sched.length := List.indexOf_lt_length.mpr hu
  have hiv : sched.indexOf v < sched.length := List.indexOf_lt_length.mpr hv
  have hgu : sched.get ⟨sched.indexOf u, hiu⟩ = u := List.indexOf_get hiu
  have hgv : sched.get ⟨sched.indexOf v, hiv⟩ = v := List.indexOf_get hiv
  have hne : sched.indexOf u ≠ sched.indexOf v := by
    intro he
    apply huv
    rw [← hgu, ← hgv]
    congr 1
    exact Fin.ext he
  rcases Nat.lt_or_ge (sched.indexOf u) (sched.indexOf v) with h | h
  · exact h
  · exfalso
    have hlt : sched.indexOf v < sched.indexOf u := by omega
    have := (List.pairwise_iff_get.mp hpw)
      ⟨sched.indexOf v, hiv⟩ ⟨sched.indexOf u, hiu⟩ hlt
    rw [hgu, hgv] at this
    exact this hedge

/-- C10: for every well-formed acyclic graph (acyclicity given by a rank
function on op ids) and every random stream, `RandomSample` returns a
schedule that contains every operator exactly once, and in which every op
appears after all of its op predecessors. -/
theorem randomSample_topological (g : Graph) (rng : Nat → Nat)
    (hwf : GraphWF g) (rank : Nat → Nat)
    (hrank : ∀ u ∈ g.ops, ∀ j ∈ vopTargets u.succs, rank u.id < rank j) :
    (RandomSample g rng).Nodup ∧
    (∀ y, y ∈ RandomSample g rng ↔ y ∈ opIds g) ∧
    (∀ v ∈ g.ops, ∀ u ∈ g.ops, VRef.vop u.id ∈ v.preds →
      (RandomSample g rng).indexOf u.id <
        (RandomSample g rng).indexOf v.id) := by
  have hinv := randomSample_init_inv g hwf
  have hspec := randomSampleLoop_spec g hwf rank hrank rng g.ops.length
    (extractZeroPredOp (initPredCount g) []).1
    (extractZeroPredOp (initPredCount g) []).2 [] hinv (by simp)
  have hrun : RandomSample g rng = randomSampleLoop g rng g.ops.length
      (extractZeroPredOp (initPredCount g) []).1
      (extractZeroPredOp (initPredCount g) []).2 [] := rfl
  rw [hrun]
  obtain ⟨hnd, hmem, hpw⟩ := hspec
  refine ⟨hnd, hmem, ?_⟩
  intro v hv u hu hpred
  have hedge : VRef.vop v.id ∈ u.succs := (hwf.predsDual u hu v hv).mp hpred
  have hrk := hrank u hu v.id (vopTargets_mem.mpr hedge)
  have hne : u.id ≠ v.id := by
    intro he
    rw [he] at hrk
    omega
  have huin : u.id ∈ randomSampleLoop g rng g.ops.length _ _ [] :=
    (hmem u.id).mpr (List.mem_map_of_mem (fun o => o.id) hu)
  have hvin : v.id ∈ randomSampleLoop g rng g.ops.length _ _ [] :=
    (hmem v.id).mpr (List.mem_map_of_mem (fun o => o.id) hv)
  apply sorted_position hpw huin hvin hne
  rw [findOp_eq hwf.idsNodup hu]
  exact hedge

/-- Concrete diamond graph used by the witness of
`randomSample_topological`. -/
def witnessGraph : Graph :=
  ⟨[⟨⟨100, ValueKind.INPUT, 1, 1⟩, [1]⟩],
   [⟨1, [], [], none, [VRef.vin 0], [VRef.vop 2, VRef.vop 3]⟩,
    ⟨2, [], [], none, [VRef.vop 1], [VRef.vop 4]⟩,
    ⟨3, [], [], none, [VRef.vop 1], [VRef.vop 4]⟩,
    ⟨4, [], [], none, [VRef.vop 2, VRef.vop 3], [VRef.vout 0]⟩]⟩

/-- Witness for `randomSample_topological`: a concrete diamond graph with
all hypotheses discharged by computation. -/
theorem randomSample_topological_witness :
    (RandomSample witnessGraph (fun _ => 1)).Nodup ∧
    (∀ y, y ∈ RandomSample witnessGraph (fun _ => 1) ↔ y ∈ opIds witnessGraph) ∧
    (∀ v ∈ witnessGraph.ops, ∀ u ∈ witnessGraph.ops,
      VRef.vop u.id ∈ v.preds →
      (RandomSample witnessGraph (fun _ => 1)).indexOf u.id <
        (RandomSample witnessGraph (fun _ => 1)).indexOf v.id) :=
  randomSample_topological witnessGraph (fun _ => 1)
    (by constructor <;> decide) (fun i => i) (by decide)

end hos
